import Mathlib

/-
Verification development for the tlm_adjoint equation layer
(src/python/tlm_adjoint/base_equations.py and
src/python_numpy/tlm_adjoint/equations.py).

The Python code is shallowly embedded: pure control flow becomes Lean
functions, fallible constructors become Except values, and the mutable
per-Variable payloads become an explicit state map from variable id to a
rational vector.  Squared residual norms in the fixed point loop are
IEEE-style values (NaN, +Inf, or an exact finite rational); finite
arithmetic is modelled exactly (rounding and overflow of finite values
are not modelled).
-/

set_option maxRecDepth 4000

/-! ## Value domain for squared residual norms

FixedPointSolver.forward_solve and FixedPointSolver.adjoint_jacobian_solve
observe one squared change norm r_norm_sq per full pass and branch on it
(numpy.isnan, comparison with the squared tolerance, equality with 0.0,
and the Python builtin max).  The value domain is NaN, +Inf, or a finite
rational; a squared 2-norm of floats is never -Inf and never a negative
finite value, and only the listed operations are applied to it. -/

inductive Fl where
  | nan : Fl
  | inf : Fl
  | fin : ℚ → Fl
deriving DecidableEq, Repr

/-- numpy.isnan. -/
def Fl.isNaN : Fl → Bool
  | .nan => true
  | _ => false

/-- IEEE comparison a < b restricted to the domain: any comparison with
NaN is false, a finite value is below +Inf, finite values compare
exactly. -/
def flLt : Fl → Fl → Bool
  | .nan, _ => false
  | _, .nan => false
  | .inf, _ => false
  | .fin _, .inf => true
  | .fin p, .fin q => decide (p < q)

/-- Python equality with the float literal 0.0: false for NaN and Inf. -/
def Fl.isZero : Fl → Bool
  | .fin q => decide (q = 0)
  | _ => false

/-- Python builtin max(a, b): returns b when b > a, else a (so a NaN in
the second position is discarded, matching CPython). -/
def pymax (a b : Fl) : Fl :=
  if flLt a b then b else a

/-- Product of a squared norm with the finite nonnegative factor
relative_tolerance ** 2.  IEEE: NaN propagates, Inf * 0.0 = NaN,
Inf * positive = Inf; finite products are exact.  The factor is a square,
hence never negative, so the -Inf case is unreachable. -/
def mulRelSq : Fl → ℚ → Fl
  | .nan, _ => .nan
  | .inf, q => if q = 0 then .nan else .inf
  | .fin p, q => .fin (p * q)

/-- Whether the value is a finite number (not NaN, not +Inf). -/
def Fl.isFinite : Fl → Bool
  | .fin _ => true
  | _ => false

/-! ## The fixed point iteration loop

Embedding of the while-loop of FixedPointSolver.forward_solve
(base_equations.py lines 541-565); the loop of adjoint_jacobian_solve
(lines 584-617) has character-for-character identical convergence logic
and is embedded by the same function below.

The member solves are opaque oracles, so the loop is parametrised by
rseq, where rseq it is the squared 2-norm of the change in the final
member solution observed after full pass number it (the first pass
compares against the zero vector produced by function_new).  The loop
body, in source order: compute r_norm_sq; raise on NaN; break when
r_norm_sq < tolerance_sq or r_norm_sq == 0.0; raise when
it >= maximum_iterations; after the first pass only, raise the tolerance
to max(tolerance_sq, r_norm_sq * relative_tolerance ** 2).

The recursion is by fuel; the loop raises at it >= maximum_iterations, so
fuel maxIt + 1 starting from pass 1 is never exhausted (the recursion
only continues while it < maxIt, so the fuel-0 branch is unreachable
from the entry points, as the characterization lemmas below show). -/

inductive FPResult where
  | converged : ℕ → FPResult
  | errNaN : ℕ → FPResult
  | errMaxIter : ℕ → FPResult
deriving DecidableEq, Repr

/-- The break condition of the loop at a given tolerance:
r_norm_sq < tolerance_sq or r_norm_sq == 0.0. -/
def breakTest (tolSq r : Fl) : Bool :=
  flLt r tolSq || r.isZero

def fpLoop (rseq : ℕ → Fl) (maxIt : ℕ) (relSq : ℚ) :
    ℕ → ℕ → Fl → FPResult
  | 0, it, _ => .errMaxIter it
  | fuel + 1, it, tolSq =>
    if (rseq it).isNaN then .errNaN it
    else if breakTest tolSq (rseq it) then .converged it
    else if maxIt ≤ it then .errMaxIter it
    else fpLoop rseq maxIt relSq fuel (it + 1)
      (if it = 1 then pymax tolSq (mulRelSq (rseq it) relSq) else tolSq)

/-- The forward fixed point iteration of FixedPointSolver.forward_solve
(lines 541-565): passes start at 1, tolerance_sq starts at
absolute_tolerance ** 2. -/
def fpForwardIteration (rseq : ℕ → Fl) (absTol relTol : ℚ) (maxIt : ℕ) :
    FPResult :=
  fpLoop rseq maxIt (relTol ^ 2) (maxIt + 1) 1 (.fin (absTol ^ 2))

/-- The adjoint fixed point iteration of
FixedPointSolver.adjoint_jacobian_solve (lines 584-617); its convergence
logic is identical to the forward loop. -/
def fpAdjointIteration (rseq : ℕ → Fl) (absTol relTol : ℚ) (maxIt : ℕ) :
    FPResult :=
  fpLoop rseq maxIt (relTol ^ 2) (maxIt + 1) 1 (.fin (absTol ^ 2))

/-- Pass m completes and continues iterating: the observed squared norm
is not NaN and the break condition fails. -/
def contPass (tolSq r : Fl) : Bool :=
  !r.isNaN && !breakTest tolSq r

/-- The tolerance in force at pass m of a full run: the squared absolute
tolerance at pass 1, and afterwards its Python max with
rseq 1 * relative_tolerance ** 2 (the update performed at the end of
pass 1 when the loop continues). -/
def tolAt (rseq : ℕ → Fl) (absTol relTol : ℚ) (m : ℕ) : Fl :=
  if m ≤ 1 then .fin (absTol ^ 2)
  else pymax (.fin (absTol ^ 2)) (mulRelSq (rseq 1) (relTol ^ 2))

/-- Pass m of a full run (pass 1 started with the squared absolute
tolerance) completes and continues. -/
def runPass (rseq : ℕ → Fl) (absTol relTol : ℚ) (m : ℕ) : Bool :=
  contPass (tolAt rseq absTol relTol m) (rseq m)

/-- Exhaustive description of a run of the loop from a pass index of at
least 2 (where the tolerance no longer changes): some pass n is reached
with every earlier pass continuing, and the loop stops at n for exactly
one of the three reasons. -/
lemma fpLoop_cases (rseq : ℕ → Fl) (maxIt : ℕ) (relSq : ℚ) (tolSq : Fl) :
    ∀ fuel it, 2 ≤ it → it ≤ maxIt → maxIt < it + fuel →
    ∃ n, it ≤ n ∧ n ≤ maxIt ∧
      (∀ m, it ≤ m → m < n → contPass tolSq (rseq m) = true) ∧
      (((rseq n).isNaN = true ∧
          fpLoop rseq maxIt relSq fuel it tolSq = .errNaN n) ∨
       ((rseq n).isNaN = false ∧ breakTest tolSq (rseq n) = true ∧
          fpLoop rseq maxIt relSq fuel it tolSq = .converged n) ∨
       (n = maxIt ∧ (rseq n).isNaN = false ∧
          breakTest tolSq (rseq n) = false ∧
          fpLoop rseq maxIt relSq fuel it tolSq = .errMaxIter n)) := by
  intro fuel
  induction fuel with
  | zero => intro it _ hle hfu; omega
  | succ fuel ih =>
    intro it h2 hle hfu
    by_cases hnan : (rseq it).isNaN = true
    · exact ⟨it, le_rfl, hle, fun m h1 h2 => absurd (lt_of_le_of_lt h1 h2) (lt_irrefl it),
        Or.inl ⟨hnan, by simp [fpLoop, hnan]⟩⟩
    · rw [Bool.not_eq_true] at hnan
      by_cases hbt : breakTest tolSq (rseq it) = true
      · exact ⟨it, le_rfl, hle, fun m h1 h2 => absurd (lt_of_le_of_lt h1 h2) (lt_irrefl it),
          Or.inr (Or.inl ⟨hnan, hbt, by simp [fpLoop, hnan, hbt]⟩)⟩
      · rw [Bool.not_eq_true] at hbt
        by_cases hcap : maxIt ≤ it
        · have hit : it = maxIt := le_antisymm hle hcap
          exact ⟨it, le_rfl, hle, fun m h1 h2 => absurd (lt_of_le_of_lt h1 h2) (lt_irrefl it),
            Or.inr (Or.inr ⟨hit, hnan, hbt, by simp [fpLoop, hnan, hbt, hcap]⟩)⟩
        · have hlt : it < maxIt := lt_of_not_le hcap
          have hne1 : it ≠ 1 := by omega
          obtain ⟨n, hn1, hn2, hcont, hres⟩ :=
            ih (it + 1) (by omega) (by omega) (by omega)
          refine ⟨n, by omega, hn2, ?_, ?_⟩
          · intro m hm1 hm2
            rcases eq_or_lt_of_le hm1 with h | h
            · subst h; simp [contPass, hnan, hbt]
            · exact hcont m (by omega) hm2
          · have hstep : fpLoop rseq maxIt relSq (fuel + 1) it tolSq =
                fpLoop rseq maxIt relSq fuel (it + 1) tolSq := by
              simp [fpLoop, hnan, hbt, hcap, hne1]
            rw [hstep]
            exact hres

/-- Exhaustive description of a full run of the forward (equally, the
adjoint) fixed point iteration: some pass n in [1, maximum_iterations]
is reached with every earlier pass continuing, and the run stops at n
for exactly one of the three reasons, with the tolerance in force at
each pass given by tolAt. -/
lemma fpIteration_cases (rseq : ℕ → Fl) (a r : ℚ) (maxIt : ℕ)
    (hmax : 1 ≤ maxIt) :
    ∃ n, 1 ≤ n ∧ n ≤ maxIt ∧
      (∀ m, 1 ≤ m → m < n → runPass rseq a r m = true) ∧
      (((rseq n).isNaN = true ∧
          fpForwardIteration rseq a r maxIt = .errNaN n) ∨
       ((rseq n).isNaN = false ∧
          breakTest (tolAt rseq a r n) (rseq n) = true ∧
          fpForwardIteration rseq a r maxIt = .converged n) ∨
       (n = maxIt ∧ (rseq n).isNaN = false ∧
          breakTest (tolAt rseq a r n) (rseq n) = false ∧
          fpForwardIteration rseq a r maxIt = .errMaxIter n)) := by
  have htol1 : tolAt rseq a r 1 = .fin (a ^ 2) := by simp [tolAt]
  by_cases hnan : (rseq 1).isNaN = true
  · exact ⟨1, le_rfl, hmax, fun m h1 h2 => absurd (lt_of_le_of_lt h1 h2) (lt_irrefl 1),
      Or.inl ⟨hnan, by simp [fpForwardIteration, fpLoop, hnan]⟩⟩
  · rw [Bool.not_eq_true] at hnan
    by_cases hbt : breakTest (.fin (a ^ 2)) (rseq 1) = true
    · refine ⟨1, le_rfl, hmax, fun m h1 h2 => absurd (lt_of_le_of_lt h1 h2) (lt_irrefl 1),
        Or.inr (Or.inl ⟨hnan, ?_, by simp [fpForwardIteration, fpLoop, hnan, hbt]⟩)⟩
      rw [htol1]; exact hbt
    · rw [Bool.not_eq_true] at hbt
      by_cases hcap : maxIt ≤ 1
      · have hm1 : maxIt = 1 := le_antisymm hcap hmax
        refine ⟨1, le_rfl, hmax, fun m h1 h2 => absurd (lt_of_le_of_lt h1 h2) (lt_irrefl 1),
          Or.inr (Or.inr ⟨hm1.symm, hnan, ?_, ?_⟩)⟩
        · rw [htol1]; exact hbt
        · simp [fpForwardIteration, fpLoop, hnan, hbt, hm1]
      · have h2max : 2 ≤ maxIt := by omega
        have hstep : fpForwardIteration rseq a r maxIt =
            fpLoop rseq maxIt (r ^ 2) maxIt 2
              (pymax (.fin (a ^ 2)) (mulRelSq (rseq 1) (r ^ 2))) := by
          simp [fpForwardIteration, fpLoop, hnan, hbt, hcap]
        have htol2 : ∀ m, 2 ≤ m → tolAt rseq a r m =
            pymax (.fin (a ^ 2)) (mulRelSq (rseq 1) (r ^ 2)) := by
          intro m hm; rw [tolAt, if_neg (by omega)]
        obtain ⟨n, hn1, hn2, hcont, hres⟩ :=
          fpLoop_cases rseq maxIt (r ^ 2)
            (pymax (.fin (a ^ 2)) (mulRelSq (rseq 1) (r ^ 2)))
            maxIt 2 le_rfl h2max (by omega)
        refine ⟨n, by omega, hn2, ?_, ?_⟩
        · intro m hm1 hm2
          rcases eq_or_lt_of_le hm1 with h | h
          · subst h
            simp [runPass, contPass, hnan, htol1, hbt]
          · have h2m : 2 ≤ m := h
            rw [runPass, htol2 m h2m]
            exact hcont m h2m hm2
        · rw [hstep, htol2 n (by omega)]
          exact hres

/-- The adjoint loop of adjoint_jacobian_solve runs the same iteration
logic as the forward loop (the source duplicates the loop verbatim). -/
lemma fpAdjoint_eq_forward (rseq : ℕ → Fl) (a r : ℚ) (maxIt : ℕ) :
    fpAdjointIteration rseq a r maxIt = fpForwardIteration rseq a r maxIt :=
  rfl

/-- A full run converges at pass n exactly when n lies within the
iteration budget, every earlier pass continued, and pass n meets the
break condition (with no NaN at n). -/
lemma fpForward_converged_iff (rseq : ℕ → Fl) (a r : ℚ) (maxIt n : ℕ)
    (hmax : 1 ≤ maxIt) :
    fpForwardIteration rseq a r maxIt = .converged n ↔
      (1 ≤ n ∧ n ≤ maxIt ∧
       (∀ m, 1 ≤ m → m < n → runPass rseq a r m = true) ∧
       (rseq n).isNaN = false ∧
       breakTest (tolAt rseq a r n) (rseq n) = true) := by
  obtain ⟨n', h1, h2, hcont, hres⟩ := fpIteration_cases rseq a r maxIt hmax
  constructor
  · intro hEq
    rcases hres with ⟨hnan, hv⟩ | ⟨hnan, hbt, hv⟩ | ⟨hcap, hnan, hbt, hv⟩
    · rw [hEq] at hv; simp at hv
    · rw [hEq] at hv
      have hnn : n = n' := by
        have := hv
        injection this
      subst hnn
      exact ⟨h1, h2, hcont, hnan, hbt⟩
    · rw [hEq] at hv; simp at hv
  · rintro ⟨hn1, hn2, hcontn, hnann, hbtn⟩
    have hne : n' = n := by
      rcases lt_trichotomy n' n with h | h | h
      · have hrp := hcontn n' h1 h
        rcases hres with ⟨hnan, _⟩ | ⟨_, hbt, _⟩ | ⟨hcap, _, _, _⟩
        · simp [runPass, contPass, hnan] at hrp
        · simp [runPass, contPass, hbt] at hrp
        · omega
      · exact h
      · have hrp := hcont n hn1 h
        simp [runPass, contPass, hbtn] at hrp
    subst hne
    rcases hres with ⟨hnan, hv⟩ | ⟨_, _, hv⟩ | ⟨_, _, hbt, _⟩
    · rw [hnan] at hnann; cases hnann
    · exact hv
    · rw [hbt] at hbtn; cases hbtn

/-- A full run aborts with the NaN error at pass k exactly when k lies
within the budget, every earlier pass continued, and the squared norm
observed at pass k is NaN. -/
lemma fpForward_errNaN_iff (rseq : ℕ → Fl) (a r : ℚ) (maxIt k : ℕ)
    (hmax : 1 ≤ maxIt) :
    fpForwardIteration rseq a r maxIt = .errNaN k ↔
      (1 ≤ k ∧ k ≤ maxIt ∧
       (∀ m, 1 ≤ m → m < k → runPass rseq a r m = true) ∧
       (rseq k).isNaN = true) := by
  obtain ⟨n', h1, h2, hcont, hres⟩ := fpIteration_cases rseq a r maxIt hmax
  constructor
  · intro hEq
    rcases hres with ⟨hnan, hv⟩ | ⟨hnan, hbt, hv⟩ | ⟨hcap, hnan, hbt, hv⟩
    · rw [hEq] at hv
      have hnn : k = n' := by injection hv
      subst hnn
      exact ⟨h1, h2, hcont, hnan⟩
    · rw [hEq] at hv; simp at hv
    · rw [hEq] at hv; simp at hv
  · rintro ⟨hn1, hn2, hcontn, hnank⟩
    have hne : n' = k := by
      rcases lt_trichotomy n' k with h | h | h
      · have hrp := hcontn n' h1 h
        rcases hres with ⟨hnan, _⟩ | ⟨_, hbt, _⟩ | ⟨hcap, _, _, _⟩
        · simp [runPass, contPass, hnan] at hrp
        · simp [runPass, contPass, hbt] at hrp
        · omega
      · exact h
      · have hrp := hcont k hn1 h
        simp [runPass, contPass, hnank] at hrp
    subst hne
    rcases hres with ⟨_, hv⟩ | ⟨hnan, _, _⟩ | ⟨_, hnan, _, _⟩
    · exact hv
    · rw [hnan] at hnank; cases hnank
    · rw [hnan] at hnank; cases hnank

/-- A full run aborts with the iteration budget error exactly at pass
maximum_iterations, when every pass up to and including that one
continued (no NaN and no break anywhere in the budget). -/
lemma fpForward_errMaxIter_iff (rseq : ℕ → Fl) (a r : ℚ) (maxIt k : ℕ)
    (hmax : 1 ≤ maxIt) :
    fpForwardIteration rseq a r maxIt = .errMaxIter k ↔
      (k = maxIt ∧
       ∀ m, 1 ≤ m → m ≤ maxIt → runPass rseq a r m = true) := by
  obtain ⟨n', h1, h2, hcont, hres⟩ := fpIteration_cases rseq a r maxIt hmax
  constructor
  · intro hEq
    rcases hres with ⟨hnan, hv⟩ | ⟨hnan, hbt, hv⟩ | ⟨hcap, hnan, hbt, hv⟩
    · rw [hEq] at hv; simp at hv
    · rw [hEq] at hv; simp at hv
    · rw [hEq] at hv
      have hnn : k = n' := by injection hv
      subst hnn
      refine ⟨hcap, fun m hm1 hm2 => ?_⟩
      rcases lt_or_eq_of_le hm2 with h | h
      · exact hcont m hm1 (by omega)
      · rw [h, ← hcap]
        simp [runPass, contPass, hnan, hbt]
  · rintro ⟨hk, hall⟩
    subst hk
    have hne : n' = k := by
      rcases lt_or_eq_of_le h2 with h | h
      · have hrp := hall n' h1 (le_of_lt h)
        rcases hres with ⟨hnan, _⟩ | ⟨_, hbt, _⟩ | ⟨hcap, _, _, _⟩
        · simp [runPass, contPass, hnan] at hrp
        · simp [runPass, contPass, hbt] at hrp
        · omega
      · exact h
    subst hne
    have hrp := hall n' h1 h2
    rcases hres with ⟨hnan, _⟩ | ⟨_, hbt, _⟩ | ⟨_, _, _, hv⟩
    · simp [runPass, contPass, hnan] at hrp
    · simp [runPass, contPass, hbt] at hrp
    · exact hv

/-! ## Claim-side convergence predicates (C1)

claimC1Test is the convergence criterion exactly as the specification
words it for a run with finite squared change norms ρ: strictly below
max(absolute_tolerance ** 2, relative_tolerance ** 2 * ρ 1), with only
the absolute tolerance in effect on the first pass.  amendedC1Test also
accepts a squared change norm that is exactly zero, which is the code
behaviour (the r_norm_sq == 0.0 disjunct of the break condition). -/

def claimC1Test (ρ : ℕ → ℚ) (absTol relTol : ℚ) (n : ℕ) : Prop :=
  if n ≤ 1 then ρ 1 < absTol ^ 2
  else ρ n < max (absTol ^ 2) (relTol ^ 2 * ρ 1)

instance (ρ : ℕ → ℚ) (a r : ℚ) (n : ℕ) : Decidable (claimC1Test ρ a r n) := by
  unfold claimC1Test
  infer_instance

def amendedC1Test (ρ : ℕ → ℚ) (absTol relTol : ℚ) (n : ℕ) : Prop :=
  claimC1Test ρ absTol relTol n ∨ ρ n = 0

instance (ρ : ℕ → ℚ) (a r : ℚ) (n : ℕ) : Decidable (amendedC1Test ρ a r n) := by
  unfold amendedC1Test
  infer_instance

lemma pymax_fin (p q : ℚ) : pymax (.fin p) (.fin q) = .fin (max p q) := by
  by_cases h : p < q
  · simp [pymax, flLt, h, max_eq_right h.le]
  · simp [pymax, flLt, h, max_eq_left (not_lt.mp h)]

/-- On an all-finite run the break condition at pass n of the full run
is exactly the amended claim C1 test. -/
lemma breakTest_fin_iff (ρ : ℕ → ℚ) (a r : ℚ) (n : ℕ) (hn : 1 ≤ n) :
    breakTest (tolAt (fun k => .fin (ρ k)) a r n) (.fin (ρ n)) = true ↔
      amendedC1Test ρ a r n := by
  unfold amendedC1Test claimC1Test
  by_cases h1 : n ≤ 1
  · have hn1 : n = 1 := by omega
    subst hn1
    simp [tolAt, breakTest, flLt, Fl.isZero]
  · rw [tolAt, if_neg h1, mulRelSq, pymax_fin]
    rw [if_neg h1]
    simp [breakTest, flLt, Fl.isZero, mul_comm]

/-- Claim C1, amended.  For a forward solve whose observed squared
change norms are all finite, the iteration is declared converged at pass
n exactly when n is within the iteration budget, the squared change norm
at pass n is below max(absolute_tolerance ** 2,
relative_tolerance ** 2 * ρ 1) -- with only the absolute tolerance in
effect on the first pass -- OR is exactly zero (the amendment), and no
earlier pass already satisfied that test. -/
theorem claim_C1_theorem (ρ : ℕ → ℚ) (a r : ℚ) (maxIt n : ℕ)
    (hmax : 1 ≤ maxIt) :
    fpForwardIteration (fun k => .fin (ρ k)) a r maxIt = .converged n ↔
      (1 ≤ n ∧ n ≤ maxIt ∧ amendedC1Test ρ a r n ∧
       ∀ m, m < n → 1 ≤ m → ¬ amendedC1Test ρ a r m) := by
  rw [fpForward_converged_iff _ _ _ _ _ hmax]
  constructor
  · rintro ⟨h1, h2, hcont, -, hbt⟩
    refine ⟨h1, h2, (breakTest_fin_iff ρ a r n h1).mp hbt, fun m hm hm1 hamend => ?_⟩
    have hrp := hcont m hm1 hm
    rw [runPass, contPass] at hrp
    simp only [Fl.isNaN, Bool.not_false, Bool.true_and, Bool.not_eq_true'] at hrp
    rw [← breakTest_fin_iff ρ a r m hm1] at hamend
    rw [hrp] at hamend
    cases hamend
  · rintro ⟨h1, h2, hamend, hfirst⟩
    refine ⟨h1, h2, fun m hm1 hm => ?_, rfl, (breakTest_fin_iff ρ a r n h1).mpr hamend⟩
    rw [runPass, contPass]
    simp only [Fl.isNaN, Bool.not_false, Bool.true_and, Bool.not_eq_true']
    by_cases hb : breakTest (tolAt (fun k => .fin (ρ k)) a r m) (.fin (ρ m)) = true
    · exact absurd ((breakTest_fin_iff ρ a r m hm1).mp hb) (hfirst m hm hm1)
    · exact Bool.not_eq_true _ ▸ hb

/-- Counterexample to claim C1 as stated: with absolute_tolerance 0 and
relative_tolerance 1, a forward solve whose change norm is exactly zero
at the first pass is declared converged at pass 1 by the code (the
r_norm_sq == 0.0 disjunct), although the squared change norm is not
strictly below max(abs_tol ** 2, rel_tol ** 2 * r1 ** 2) = 0 as the
claim requires. -/
theorem claim_C1_counterexample :
    fpForwardIteration (fun _ => .fin 0) 0 1 10 = .converged 1 ∧
      ¬ claimC1Test (fun _ => 0) 0 1 1 := by
  constructor
  · norm_num [fpForwardIteration, fpLoop, breakTest, flLt, Fl.isZero, Fl.isNaN]
  · norm_num [claimC1Test]

/-- Witness for claim C1 (amended): a concrete all-finite run with
absolute_tolerance 1 and relative_tolerance 1 whose change norms are
9, 0, 0, ... converges exactly at pass 2. -/
theorem claim_C1_witness :
    fpForwardIteration (fun k => .fin (if k = 1 then 9 else 0)) 1 1 10 =
      .converged 2 := by
  refine (claim_C1_theorem (fun k => if k = 1 then 9 else 0) 1 1 10 2
    (by norm_num)).mpr ⟨by norm_num, by norm_num, Or.inr (by norm_num), ?_⟩
  intro m hm hm1
  have hm' : m = 1 := by omega
  subst hm'
  rw [amendedC1Test, claimC1Test]
  norm_num

/-- Claim C2, amended.  A forward or adjoint fixed point iteration fails
in exactly two ways: with the NaN error at the first reached pass whose
squared change norm is NaN, or with the non-convergence error after
maximum_iterations full passes during which every pass continued; a
non-finite (infinite) squared norm does not by itself abort the solve
(only NaN does -- see the counterexample). -/
theorem claim_C2_theorem (rseq : ℕ → Fl) (a r : ℚ) (maxIt : ℕ)
    (hmax : 1 ≤ maxIt) :
    (∀ k, fpForwardIteration rseq a r maxIt = .errNaN k ↔
        (1 ≤ k ∧ k ≤ maxIt ∧
         (∀ m, 1 ≤ m → m < k → runPass rseq a r m = true) ∧
         (rseq k).isNaN = true)) ∧
    (∀ k, fpForwardIteration rseq a r maxIt = .errMaxIter k ↔
        (k = maxIt ∧ ∀ m, 1 ≤ m → m ≤ maxIt → runPass rseq a r m = true)) ∧
    (∀ k, fpAdjointIteration rseq a r maxIt = .errNaN k ↔
        (1 ≤ k ∧ k ≤ maxIt ∧
         (∀ m, 1 ≤ m → m < k → runPass rseq a r m = true) ∧
         (rseq k).isNaN = true)) ∧
    (∀ k, fpAdjointIteration rseq a r maxIt = .errMaxIter k ↔
        (k = maxIt ∧ ∀ m, 1 ≤ m → m ≤ maxIt → runPass rseq a r m = true)) := by
  refine ⟨fun k => fpForward_errNaN_iff rseq a r maxIt k hmax,
          fun k => fpForward_errMaxIter_iff rseq a r maxIt k hmax,
          fun k => ?_, fun k => ?_⟩
  · rw [fpAdjoint_eq_forward]
    exact fpForward_errNaN_iff rseq a r maxIt k hmax
  · rw [fpAdjoint_eq_forward]
    exact fpForward_errMaxIter_iff rseq a r maxIt k hmax

/-- Counterexample to claim C2 as stated: the squared change norm is
non-finite (+Inf) at pass 1, yet the solve does not raise -- the
tolerance becomes max(1, Inf * 1) = Inf after the first pass and the
solve returns normally, converged at pass 2.  Only NaN aborts. -/
theorem claim_C2_counterexample :
    fpForwardIteration (fun k => if k = 1 then Fl.inf else .fin 0) 1 1 10 =
        .converged 2 ∧
      Fl.inf.isFinite = false := by
  constructor
  · norm_num [fpForwardIteration, fpLoop, breakTest, flLt, Fl.isZero,
      Fl.isNaN, pymax, mulRelSq]
  · rfl

/-- Witness for claim C2 (amended): a run with constant finite change
norm 5, tolerances 1, and an iteration budget of 2 aborts with the
non-convergence error at pass 2. -/
theorem claim_C2_witness :
    fpForwardIteration (fun _ => .fin 5) 1 1 2 = .errMaxIter 2 := by
  refine ((claim_C2_theorem (fun _ => .fin 5) 1 1 2 (by norm_num)).2.1 2).mpr
    ⟨rfl, ?_⟩
  intro m hm1 hm2
  interval_cases m
  · norm_num [runPass, contPass, tolAt, breakTest, flLt, Fl.isZero, Fl.isNaN]
  · norm_num [runPass, contPass, tolAt, breakTest, flLt, Fl.isZero, Fl.isNaN,
      pymax_fin, mulRelSq]

/-! ## Variables and Equation construction

Embedding of the Function/Variable objects of the backend interface and
of Equation.__init__ (base_equations.py lines 44-90).  A Variable has a
stable unique id and a static flag; Python object equality between
Function objects distinguishes distinct Variables, which the embedding
models by structural equality on Var.  Error paths of constructors are
Except values (Python raises EquationException or a builtin error at
construction, before any solve). -/

structure Var where
  id : ℕ
  static : Bool := false
deriving DecidableEq, Repr, Inhabited

inductive EqErr where
  | notAFunction
  | staticSolution
  | solutionNotDependency
  | duplicateDependency
  | duplicateNlDependency
  | keyError
  | nonlinearSelfDependency
  | duplicateSolve
  | multipleSolves
  | attributeError
  | indexError
  | invalidTLParameter
  | initialGuessWithoutNonzero
deriving DecidableEq, Repr

/-- The record assembled by Equation.__init__ (lines 86-90). -/
structure EqRec where
  X : List Var
  deps : List Var
  nl_deps : Option (List Var)
  nl_deps_map : List ℕ
  checkpoint_ic : List Bool
deriving DecidableEq, Repr, Inhabited

/-- The per-solution checks of Equation.__init__ (lines 67-73), in
source order: every solution must be a Function (always true for Var),
must not be static, and must be a member of deps. -/
def checkSolutions : List Var → List Var → Except EqErr Unit
  | [], _ => .ok ()
  | x :: xs, deps =>
    if x.static then .error .staticSolution
    else if x ∈ deps then checkSolutions xs deps
    else .error .solutionNotDependency

/-- Index of the dependency with the given id (the dep_ids dictionary of
line 74); missing ids raise KeyError (line 83). -/
def lookupDepIdx (deps : List Var) (i : ℕ) : Except EqErr ℕ :=
  match deps.findIdx? (fun d => d.id = i) with
  | some j => .ok j
  | none => .error .keyError

/-- Equation.__init__ (lines 65-90): validate the solutions, reject
duplicate dependency ids, then either default nl_deps to deps (identity
nl_deps_map, checkpoint_ic all true) or validate the explicit nl_deps
(no duplicate ids, kept as indices into deps) and set
checkpoint_ic = [x in nl_deps for x in X]. -/
def equationInit (X deps : List Var) (nl_deps : Option (List Var)) :
    Except EqErr EqRec := do
  checkSolutions X deps
  if (deps.map Var.id).Nodup then
    match nl_deps with
    | none =>
      .ok ⟨X, deps, none, List.range deps.length, X.map (fun _ => true)⟩
    | some nl =>
      if (nl.map Var.id).Nodup then do
        let nlMap ← nl.mapM (fun d => lookupDepIdx deps d.id)
        .ok ⟨X, deps, some nl, nlMap, X.map (fun x => decide (x ∈ nl))⟩
      else .error .duplicateNlDependency
  else .error .duplicateDependency

lemma checkSolutions_ok_mem (X deps : List Var)
    (h : checkSolutions X deps = .ok ()) : ∀ x ∈ X, x ∈ deps := by
  induction X with
  | nil => intro x hx; cases hx
  | cons a xs ih =>
    intro x hx
    rw [checkSolutions] at h
    by_cases hst : a.static
    · simp [hst] at h
    · rw [if_neg hst] at h
      by_cases hmem : a ∈ deps
      · rw [if_pos hmem] at h
        rcases List.mem_cons.mp hx with hx | hx
        · exact hx ▸ hmem
        · exact ih h x hx
      · simp [hmem] at h

/-- The checkpoint_ic rule exactly as claim C3 words it: the flag holds
unless the solution Variable is itself in nl_deps. -/
def claimC3Rule (x : Var) (nl : List Var) : Bool :=
  decide (x ∉ nl)

/-- Claim C3, amended.  The derived per-solution checkpoint_ic flag is
true exactly when the solution Variable IS in nl_deps (not when it is
absent from nl_deps, as the claim states); when nl_deps is omitted every
flag is true, which follows the same rule because every solution is
required to be a dependency and nl_deps then defaults to deps. -/
theorem claim_C3_theorem :
    (∀ X deps nl rec, equationInit X deps (some nl) = .ok rec →
        rec.checkpoint_ic = X.map (fun x => decide (x ∈ nl))) ∧
    (∀ X deps rec, equationInit X deps none = .ok rec →
        rec.checkpoint_ic = X.map (fun _ => true) ∧ ∀ x ∈ X, x ∈ deps) := by
  constructor
  · intro X deps nl rec h
    rw [equationInit] at h
    cases hcs : checkSolutions X deps with
    | error e => rw [hcs] at h; cases h
    | ok u =>
      cases u
      rw [hcs] at h
      simp only [bind, Except.bind] at h
      by_cases hnd : (deps.map Var.id).Nodup
      · rw [if_pos hnd] at h
        by_cases hnl : (nl.map Var.id).Nodup
        · rw [if_pos hnl] at h
          cases hmm : nl.mapM (fun d => lookupDepIdx deps d.id) with
          | error e => rw [hmm] at h; cases h
          | ok nlMap =>
            rw [hmm] at h
            simp only [bind, Except.bind] at h
            cases h
            rfl
        · rw [if_neg hnl] at h; cases h
      · rw [if_neg hnd] at h; cases h
  · intro X deps rec h
    rw [equationInit] at h
    cases hcs : checkSolutions X deps with
    | error e => rw [hcs] at h; cases h
    | ok u =>
      cases u
      rw [hcs] at h
      simp only [bind, Except.bind] at h
      by_cases hnd : (deps.map Var.id).Nodup
      · rw [if_pos hnd] at h
        cases h
        exact ⟨rfl, checkSolutions_ok_mem X deps hcs⟩
      · rw [if_neg hnd] at h; cases h

/-- Counterexample to claim C3 as stated: for solution x with
nl_deps = [y] (x not a nonlinear dependency -- the shape of
NormSqEquation), the code computes checkpoint_ic = [False], while the
rule of the claim (true when the solution is NOT in nl_deps) gives
True.  The polarity of the claim is the reverse of the code. -/
theorem claim_C3_counterexample :
    (equationInit [Var.mk 0 false] [Var.mk 0 false, Var.mk 1 false]
        (some [Var.mk 1 false])).map EqRec.checkpoint_ic = .ok [false] ∧
      claimC3Rule (Var.mk 0 false) [Var.mk 1 false] = true := by
  constructor
  · rfl
  · rfl

/-- Witness for claim C3 (amended), at a concrete Equation whose single
solution is itself a nonlinear dependency: checkpoint_ic is [true]. -/
theorem claim_C3_witness :
    (EqRec.mk [Var.mk 0 false] [Var.mk 0 false, Var.mk 1 false]
        (some [Var.mk 0 false]) [0] [true]).checkpoint_ic =
      [Var.mk 0 false].map (fun x => decide (x ∈ [Var.mk 0 false])) :=
  claim_C3_theorem.1 [Var.mk 0 false] [Var.mk 0 false, Var.mk 1 false]
    [Var.mk 0 false] _ (by rfl)

/-! ## Variable payloads and backend primitives

The numerical backend interface (base_interface.py) is not part of the
sources under verification; its primitives are modelled from the spec.
A Variable payload is a finite rational vector, and a state maps each
variable id to its payload. -/

/-- Modelled from the spec: a Variable value payload (opaque mutable
numeric state), taken to be a finite rational vector. -/
def Payload : Type := List ℚ
deriving DecidableEq, Repr, Inhabited

/-- Modelled from the spec: function_zero zeroes a payload in place,
preserving its shape. -/
def function_zero (v : Payload) : Payload :=
  v.map (fun _ => 0)

/-- Modelled from the spec: function_assign copies the source payload
into the target. -/
def function_assign (_target source : Payload) : Payload :=
  source

/-- Modelled from the spec: function_axpy performs v := v + alpha * w
componentwise. -/
def function_axpy (v : Payload) (alpha : ℚ) (w : Payload) : Payload :=
  v.zipWith (fun a b => a + alpha * b) w

/-- Modelled from the spec: a Dirichlet-style boundary constraint fixing
the component at an index to a value; homogenize_bc replaces the value
with zero. -/
def BC : Type := ℕ × ℚ
deriving DecidableEq, Repr

def homogenize_bc (bc : BC) : BC :=
  (bc.1, 0)

/-- Modelled from the spec: apply_bcs imposes each constraint on the
payload in order. -/
def apply_bcs (v : Payload) (bcs : List BC) : Payload :=
  bcs.foldl (fun v bc => v.set bc.1 bc.2) v

/-- A state assigns every variable id a payload. -/
def State : Type := ℕ → Payload

/-- Pointwise update of a state at one variable id. -/
def State.set (σ : State) (i : ℕ) (v : Payload) : State :=
  fun j => if j = i then v else σ j

/-! ## AssignmentSolver and LinearCombinationSolver

Embedding of AssignmentSolver (base_equations.py lines 298-341) and
LinearCombinationSolver (lines 343-401).  The constructor argument pairs
(alpha_i, y_i) of LinearCombinationSolver are the *args tuple; the float
coefficients are exact rationals here. -/

structure AssignRec where
  x : Var
  y : Var
  bcs : List BC
  hbcs : List BC
  base : EqRec
deriving DecidableEq, Repr

/-- AssignmentSolver.__init__ (lines 299-307): reject x == y, homogenize
the boundary conditions, then construct the Equation with deps [x, y]
and empty nl_deps. -/
def assignmentInit (y x : Var) (bcs : List BC) : Except EqErr AssignRec := do
  if x = y then .error .nonlinearSelfDependency
  else do
    let hbcs := bcs.map homogenize_bc
    let base ← equationInit [x] [x, y] (some [])
    .ok ⟨x, y, bcs, hbcs, base⟩

structure LCRec where
  x : Var
  alpha : List ℚ
  ys : List Var
  bcs : List BC
  hbcs : List BC
  base : EqRec
deriving DecidableEq, Repr

/-- LinearCombinationSolver.__init__ (lines 344-356): split the argument
pairs into coefficients and Variables, reject x in y, homogenize the
boundary conditions, then construct the Equation with deps [x] + y and
empty nl_deps. -/
def lcInit (x : Var) (args : List (ℚ × Var)) (bcs : List BC) :
    Except EqErr LCRec := do
  let alpha := args.map Prod.fst
  let y := args.map Prod.snd
  if x ∈ y then .error .nonlinearSelfDependency
  else do
    let hbcs := bcs.map homogenize_bc
    let base ← equationInit [x] (x :: y) (some [])
    .ok ⟨x, alpha, y, bcs, hbcs, base⟩

/-- LinearCombinationSolver.forward_solve (lines 358-363) with the
default deps: zero x, accumulate alpha_i * y_i with function_axpy over
the dependencies after the solution, then apply the boundary
conditions; the result is written back to the state at x. -/
def lcsForwardSolve (rec : LCRec) (σ : State) : State :=
  let v0 := function_zero (σ rec.x.id)
  let v1 := (rec.alpha.zip rec.ys).foldl
    (fun v p => function_axpy v p.1 (σ p.2.id)) v0
  σ.set rec.x.id (apply_bcs v1 rec.bcs)

/-- The possible return shapes of adjoint_derivative_action: the
direction itself, a (scale, direction) pair, or no contribution. -/
inductive AdjAction where
  | value : Payload → AdjAction
  | scaled : ℚ → Payload → AdjAction
  | none : AdjAction
deriving DecidableEq, Repr

/-- LinearCombinationSolver.adjoint_derivative_action (lines 365-371):
identity for the solution (index 0), (-alpha_i, adj_x) for
1 <= dep_index <= len(alpha), no contribution otherwise; adj_x is
returned unmodified, never mutated. -/
def lcsAdjointDerivativeAction (alpha : List ℚ) (dep_index : ℕ)
    (adj_x : Payload) : AdjAction :=
  if dep_index = 0 then .value adj_x
  else if dep_index ≤ alpha.length then
    .scaled (-(alpha.getD (dep_index - 1) 0)) adj_x
  else .none

/-- AssignmentSolver.adjoint_derivative_action (lines 314-320):
identity for index 0, (-1.0, adj_x) for index 1, no contribution
otherwise. -/
def assignmentAdjointDerivativeAction (dep_index : ℕ) (adj_x : Payload) :
    AdjAction :=
  if dep_index = 0 then .value adj_x
  else if dep_index = 1 then .scaled (-1) adj_x
  else .none

/-- Whether a constructor call succeeded (did not raise). -/
def exceptIsOk {α : Type} : Except EqErr α → Bool
  | .ok _ => true
  | .error _ => false

lemma equationInit_ok_nodup (X deps : List Var) (nl : Option (List Var))
    (rec : EqRec) (h : equationInit X deps nl = .ok rec) :
    (deps.map Var.id).Nodup := by
  rw [equationInit.eq_def] at h
  cases hcs : checkSolutions X deps with
  | error e => rw [hcs] at h; cases h
  | ok u =>
    cases u
    rw [hcs] at h
    simp only [bind, Except.bind] at h
    by_cases hnd : (deps.map Var.id).Nodup
    · exact hnd
    · rw [if_neg hnd] at h; cases h

lemma lcInit_ok (x : Var) (args : List (ℚ × Var)) (bcs : List BC)
    (rec : LCRec) (h : lcInit x args bcs = .ok rec) :
    rec.x = x ∧ rec.alpha = args.map Prod.fst ∧
      rec.ys = args.map Prod.snd ∧ rec.bcs = bcs ∧
      ((x :: args.map Prod.snd).map Var.id).Nodup := by
  rw [lcInit] at h
  by_cases hmem : x ∈ args.map Prod.snd
  · rw [if_pos hmem] at h; cases h
  · rw [if_neg hmem] at h
    simp only [bind, Except.bind] at h
    cases hinit : equationInit [x] (x :: args.map Prod.snd) (some []) with
    | error e => rw [hinit] at h; cases h
    | ok base =>
      rw [hinit] at h
      cases h
      exact ⟨rfl, rfl, rfl, rfl, equationInit_ok_nodup _ _ _ _ hinit⟩

lemma zipFstSnd {α β : Type} (l : List (α × β)) :
    (l.map Prod.fst).zip (l.map Prod.snd) = l := by
  induction l with
  | nil => rfl
  | cons a as ih => simp [ih]

lemma map_zero_eq_replicate (v : Payload) :
    function_zero v = List.replicate v.length (0 : ℚ) := by
  unfold function_zero
  induction v with
  | nil => rfl
  | cons a as ih => simp [List.replicate, ih]

/-- The weighted sum exactly as claim C6 words it: starting from zero,
accumulate each coefficient times each payload componentwise. -/
def weightedSum (n : ℕ) (ts : List (ℚ × Payload)) : Payload :=
  ts.foldl (fun acc t => acc.zipWith (fun a b => a + t.1 * b) t.2)
    (List.replicate n 0)

/-- Claim C6, confirmed.  A LinearCombinationSolver forward solve writes
to x exactly the boundary-constrained weighted sum of the dependency
payloads; with no boundary conditions it is exactly the weighted sum;
and the result does not depend on the prior payload of x (no leakage):
overwriting x beforehand with any same-length payload gives the same
result. -/
theorem claim_C6_theorem (x : Var) (args : List (ℚ × Var)) (bcs : List BC)
    (rec : LCRec) (σ : State) (n : ℕ)
    (h : lcInit x args bcs = .ok rec)
    (hx : (σ x.id).length = n)
    (hys : ∀ y ∈ args.map Prod.snd, (σ y.id).length = n) :
    (lcsForwardSolve rec σ) x.id =
        apply_bcs (weightedSum n (args.map (fun p => (p.1, σ p.2.id)))) bcs ∧
      (bcs = [] → (lcsForwardSolve rec σ) x.id =
        weightedSum n (args.map (fun p => (p.1, σ p.2.id)))) ∧
      ∀ v : Payload, v.length = n →
        (lcsForwardSolve rec (σ.set x.id v)) x.id =
          apply_bcs (weightedSum n (args.map (fun p => (p.1, σ p.2.id)))) bcs := by
  obtain ⟨hrx, hra, hry, hrb, hnd⟩ := lcInit_ok x args bcs rec h
  have hxid : ∀ y ∈ args.map Prod.snd, y.id ≠ x.id := by
    intro y hy hcontra
    rw [List.map_cons, List.nodup_cons] at hnd
    exact hnd.1 (hcontra ▸ List.mem_map_of_mem Var.id hy)
  have key : ∀ τ : State, (τ x.id).length = n →
      (∀ y ∈ args.map Prod.snd, τ y.id = σ y.id) →
      (lcsForwardSolve rec τ) x.id =
        apply_bcs (weightedSum n (args.map (fun p => (p.1, σ p.2.id)))) bcs := by
    intro τ hτ hagree
    rw [lcsForwardSolve, hrx, hra, hry, hrb]
    rw [State.set]
    rw [if_pos rfl]
    congr 1
    rw [zipFstSnd, map_zero_eq_replicate, hτ]
    rw [weightedSum, List.foldl_map]
    exact List.foldl_ext _ _ _ (fun acc p hp => by
      simp only [function_axpy, hagree p.2 (List.mem_map_of_mem Prod.snd hp)])
  refine ⟨key σ hx (fun y _ => rfl), ?_, ?_⟩
  · intro hb
    rw [key σ hx (fun y _ => rfl), hb]
    rfl
  · intro v hv
    refine key (σ.set x.id v) ?_ ?_
    · rw [State.set, if_pos rfl]; exact hv
    · intro y hy
      rw [State.set, if_neg (hxid y hy)]

/-- The state of the concrete example of claim C6: a = [2], b = [4], and
the solution x holds the stale value [7] before the solve. -/
def lcExampleState : State :=
  fun i => if i = 1 then [2] else if i = 2 then [4] else [7]

/-- Witness for claim C6 at the concrete example of the claim:
x <- 1.0 * a + 0.5 * b with a = 2.0, b = 4.0 (and stale x = 7.0)
yields exactly x = 4.0. -/
theorem claim_C6_witness :
    (lcsForwardSolve
        (LCRec.mk (Var.mk 0 false) [1, 1/2] [Var.mk 1 false, Var.mk 2 false]
          [] []
          (EqRec.mk [Var.mk 0 false]
            [Var.mk 0 false, Var.mk 1 false, Var.mk 2 false]
            (some []) [] [false]))
        lcExampleState) 0 = [4] := by
  have h := (claim_C6_theorem (Var.mk 0 false)
      [(1, Var.mk 1 false), (1/2, Var.mk 2 false)] []
      (LCRec.mk (Var.mk 0 false) [1, 1/2] [Var.mk 1 false, Var.mk 2 false]
        [] []
        (EqRec.mk [Var.mk 0 false]
          [Var.mk 0 false, Var.mk 1 false, Var.mk 2 false]
          (some []) [] [false]))
      lcExampleState 1 (by rfl) (by rfl) (by decide)).2.1 rfl
  rw [h]
  show weightedSum 1 [(1, [2]), (1/2, [4])] = [4]
  rw [weightedSum]
  norm_num

/-- Claim C7, confirmed.  The adjoint derivative action of
LinearCombinationSolver is the identity on the direction at dependency
index 0 (the solution), the pair (-alpha_i, adj_x) at the index of each
y_i, and no contribution beyond; AssignmentSolver behaves as the
alpha = 1 special case; the embedded actions are pure functions, so the
direction adj_x is never mutated (it is returned as given). -/
theorem claim_C7_theorem (alpha : List ℚ) (i : ℕ) (v : Payload) :
    (lcsAdjointDerivativeAction alpha 0 v = .value v) ∧
    (1 ≤ i → i ≤ alpha.length →
      lcsAdjointDerivativeAction alpha i v =
        .scaled (-(alpha.getD (i - 1) 0)) v) ∧
    (alpha.length < i → lcsAdjointDerivativeAction alpha i v = .none) ∧
    (assignmentAdjointDerivativeAction 0 v = .value v) ∧
    (assignmentAdjointDerivativeAction 1 v = .scaled (-1) v) ∧
    (2 ≤ i → assignmentAdjointDerivativeAction i v = .none) ∧
    (assignmentAdjointDerivativeAction i v =
      lcsAdjointDerivativeAction [1] i v) := by
  refine ⟨rfl, ?_, ?_, rfl, rfl, ?_, ?_⟩
  · intro h1 h2
    rw [lcsAdjointDerivativeAction, if_neg (by omega), if_pos h2]
  · intro hgt
    rw [lcsAdjointDerivativeAction, if_neg (by omega), if_neg (by omega)]
  · intro h2
    rw [assignmentAdjointDerivativeAction, if_neg (by omega), if_neg (by omega)]
  · rcases Nat.lt_or_ge i 2 with h | h
    · interval_cases i
      · rfl
      · rfl
    · rw [assignmentAdjointDerivativeAction, if_neg (by omega), if_neg (by omega),
        lcsAdjointDerivativeAction, if_neg (by omega), if_neg (by simp; omega)]

/-- Witness for claim C7 at concrete inputs: coefficients [1/2], index
1, direction [3]. -/
theorem claim_C7_witness :
    lcsAdjointDerivativeAction [1/2] 1 [3] = .scaled (-(1/2)) [3] ∧
      lcsAdjointDerivativeAction [1/2] 2 [3] = .none := by
  constructor
  · have h := (claim_C7_theorem [1/2] 1 [3]).2.1 (by norm_num) (by norm_num)
    rw [h]
    rfl
  · exact (claim_C7_theorem [1/2] 2 [3]).2.2.1 (by norm_num)

lemma checkSolutions_bad_err (X deps : List Var)
    (h : ∃ x ∈ X, x.static = true ∨ x ∉ deps) :
    ∃ e, checkSolutions X deps = .error e := by
  induction X with
  | nil => obtain ⟨x, hx, -⟩ := h; cases hx
  | cons a xs ih =>
    rw [checkSolutions]
    by_cases hst : a.static
    · exact ⟨.staticSolution, by rw [if_pos hst]⟩
    · rw [if_neg hst]
      by_cases hmem : a ∈ deps
      · rw [if_pos hmem]
        obtain ⟨x, hx, hbad⟩ := h
        rcases List.mem_cons.mp hx with hx | hx
        · subst hx
          rcases hbad with hbad | hbad
          · exact absurd hbad hst
          · exact absurd hmem hbad
        · exact ih ⟨x, hx, hbad⟩
      · exact ⟨.solutionNotDependency, by rw [if_neg hmem]⟩

/-- Claim C8, confirmed.  Each of the following raises at construction
time, before any solve (the Except value is an error): a static Variable
given as a solution; a solution Variable not contained in deps; a
dependency identity appearing twice in deps; and a linear equation
(AssignmentSolver or LinearCombinationSolver) whose solution also
appears among its right-hand-side terms. -/
theorem claim_C8_theorem :
    (∀ X deps nl, (∃ x ∈ X, x.static = true) →
        exceptIsOk (equationInit X deps nl) = false) ∧
    (∀ X deps nl, (∃ x ∈ X, x ∉ deps) →
        exceptIsOk (equationInit X deps nl) = false) ∧
    (∀ X deps nl, ¬ (deps.map Var.id).Nodup →
        exceptIsOk (equationInit X deps nl) = false) ∧
    (∀ y x bcs, x = y → exceptIsOk (assignmentInit y x bcs) = false) ∧
    (∀ x args bcs, x ∈ args.map Prod.snd →
        exceptIsOk (lcInit x args bcs) = false) := by
  have hcs : ∀ X deps nl, (∃ x ∈ X, x.static = true ∨ x ∉ deps) →
      exceptIsOk (equationInit X deps nl) = false := by
    intro X deps nl h
    obtain ⟨e, he⟩ := checkSolutions_bad_err X deps h
    rw [equationInit.eq_def, he]
    rfl
  refine ⟨fun X deps nl h => hcs X deps nl ?_,
          fun X deps nl h => hcs X deps nl ?_, ?_, ?_, ?_⟩
  · obtain ⟨x, hx, hs⟩ := h; exact ⟨x, hx, Or.inl hs⟩
  · obtain ⟨x, hx, hs⟩ := h; exact ⟨x, hx, Or.inr hs⟩
  · intro X deps nl hnd
    rw [equationInit.eq_def]
    cases hc : checkSolutions X deps with
    | error e => rfl
    | ok u =>
      cases u
      simp only [bind, Except.bind]
      rw [if_neg hnd]
      rfl
  · intro y x bcs h
    rw [assignmentInit]
    rw [if_pos h]
    rfl
  · intro x args bcs h
    rw [lcInit]
    simp only [bind, Except.bind]
    rw [if_pos h]
    rfl

/-- Witness for claim C8, applying each conjunct at a concrete bad
construction: a static solution, a solution missing from deps, a
duplicated dependency id, x == y in AssignmentSolver, and x among the
right-hand-side terms of LinearCombinationSolver. -/
theorem claim_C8_witness :
    exceptIsOk (equationInit [Var.mk 0 true] [Var.mk 0 true] none) = false ∧
      exceptIsOk (equationInit [Var.mk 0 false] [Var.mk 1 false] none) = false ∧
      exceptIsOk (equationInit [Var.mk 0 false]
        [Var.mk 0 false, Var.mk 0 false] none) = false ∧
      exceptIsOk (assignmentInit (Var.mk 0 false) (Var.mk 0 false) []) = false ∧
      exceptIsOk (lcInit (Var.mk 0 false) [(1, Var.mk 0 false)] []) = false :=
  ⟨claim_C8_theorem.1 _ _ none (by decide),
   claim_C8_theorem.2.1 _ _ none (by decide),
   claim_C8_theorem.2.2.1 _ _ none (by decide),
   claim_C8_theorem.2.2.2.1 _ _ [] rfl,
   claim_C8_theorem.2.2.2.2 _ _ [] (by decide)⟩

/-! ## Tangent-linear derivation (AssignmentSolver,
LinearCombinationSolver, NormSqEquation)

A TangentLinearMap is a partial map from a Variable to its
tangent-linear companion (None when the Variable has none).  The scans
below embed the parameter loops of the three tangent_linear methods;
indexing dM[i] out of range surfaces as the IndexError value. -/

def TlmMap : Type := Var → Option Var

/-- The enumerate(M) scan shared by AssignmentSolver.tangent_linear
(lines 326-341) and NormSqEquation.tangent_linear
(python_numpy equations.py lines 455-470): walking M with index i,
raise for m == x, record dM[i] for the last m == y. -/
def enumScan (x y : Var) (dM : List Var) :
    List Var → ℕ → Option Var → Except EqErr (Option Var)
  | [], _, acc => .ok acc
  | m :: ms, i, acc =>
    if m = x then .error .invalidTLParameter
    else if m = y then
      match dM.get? i with
      | none => .error .indexError
      | some dm => enumScan x y dM ms (i + 1) (some dm)
    else enumScan x y dM ms (i + 1) acc

/-- AssignmentSolver.tangent_linear (lines 326-341): scan M, fall back
to tlm_map[y], return None when y has no companion, otherwise construct
AssignmentSolver(tau_y, tlm_map[x], bcs=hbcs); a missing companion for
the solution x makes the constructed solution not a Function. -/
def assignmentTangentLinear (rec : AssignRec) (M dM : List Var)
    (tlm : TlmMap) : Except EqErr (Option AssignRec) := do
  let tau0 ← enumScan rec.x rec.y dM M 0 none
  let tau_y := match tau0 with
    | none => tlm rec.y
    | some t => some t
  match tau_y with
  | none => .ok none
  | some ty =>
    match tlm rec.x with
    | none => .error .notAFunction
    | some tx => (assignmentInit ty tx rec.hbcs).map some

/-- The zip(M, dM) scan of LinearCombinationSolver.tangent_linear
(lines 377-392): raise for m == x, otherwise record dm at the first
index of m in ys (a ValueError from ys.index is absorbed). -/
def lcsZipScan (x : Var) (ys : List Var) :
    List (Var × Var) → List (Option Var) → Except EqErr (List (Option Var))
  | [], tau => .ok tau
  | p :: rest, tau =>
    if p.1 = x then .error .invalidTLParameter
    else
      match ys.findIdx? (fun z => z = p.1) with
      | none => lcsZipScan x ys rest tau
      | some i => lcsZipScan x ys rest (tau.set i (some p.2))

/-- LinearCombinationSolver.tangent_linear (lines 377-401): scan
zip(M, dM), fall back to tlm_map[y_i] for unset entries, keep the terms
whose companion exists with the same coefficients, return None when no
term survives, otherwise construct
LinearCombinationSolver(tlm_map[x], *args, bcs=hbcs). -/
def lcsTangentLinear (rec : LCRec) (M dM : List Var) (tlm : TlmMap) :
    Except EqErr (Option LCRec) := do
  let tau0 ← lcsZipScan rec.x rec.ys (M.zip dM) (rec.ys.map fun _ => none)
  let tau := (rec.ys.zip tau0).map (fun p =>
    match p.2 with
    | none => tlm p.1
    | some t => some t)
  let args := (rec.alpha.zip tau).filterMap (fun p =>
    p.2.map (fun v => (p.1, v)))
  if args.isEmpty then .ok none
  else
    match tlm rec.x with
    | none => .error .notAFunction
    | some tx => (lcInit tx args rec.hbcs).map some

/-- The record of NormSqEquation.__init__ (python_numpy equations.py
lines 431-438): solves for x with deps [x, y] and nl_deps [y]. -/
structure NormSqRec where
  y : Var
  x : Var
  base : EqRec
deriving DecidableEq, Repr

def normSqInit (y x : Var) : Except EqErr NormSqRec :=
  (equationInit [x] [x, y] (some [y])).map (fun base => ⟨y, x, base⟩)

/-- The constructor call InnerProductEquation(y, tau_y, tlm_map[x],
alpha=2.0, M=...) returned by NormSqEquation.tangent_linear; the inner
product equation itself is outside the embedded sources, so the call is
recorded as a descriptor. -/
structure InnerProductCall where
  y : Var
  z : Var
  x : Option Var
  alpha : ℚ
deriving DecidableEq, Repr

/-- NormSqEquation.tangent_linear (python_numpy equations.py lines
455-470): the same enumerate scan as AssignmentSolver, falling back to
tlm_map[y]; returns None when y has no companion, otherwise the
InnerProductEquation constructor call with alpha = 2.0. -/
def normSqTangentLinear (rec : NormSqRec) (M dM : List Var)
    (tlm : TlmMap) : Except EqErr (Option InnerProductCall) := do
  let tau0 ← enumScan rec.x rec.y dM M 0 none
  let tau_y := match tau0 with
    | none => tlm rec.y
    | some t => some t
  match tau_y with
  | none => .ok none
  | some ty => .ok (some ⟨rec.y, ty, tlm rec.x, 2⟩)

lemma enumScan_err (x y : Var) (dM : List Var) :
    ∀ ms i acc, x ∈ ms → i + ms.length ≤ dM.length →
      enumScan x y dM ms i acc = .error .invalidTLParameter := by
  intro ms
  induction ms with
  | nil => intro i acc hx _; cases hx
  | cons m rest ih =>
    intro i acc hx hlen
    rw [enumScan]
    by_cases hmx : m = x
    · rw [if_pos hmx]
    · rw [if_neg hmx]
      have hx' : x ∈ rest := by
        rcases List.mem_cons.mp hx with h | h
        · exact absurd h.symm hmx
        · exact h
      by_cases hmy : m = y
      · rw [if_pos hmy]
        have hi : i < dM.length := by
          simp only [List.length_cons] at hlen
          omega
        cases hg : dM.get? i with
        | none =>
          rw [List.get?_eq_none] at hg
          omega
        | some dm =>
          exact ih (i + 1) (some dm) hx' (by simp at hlen ⊢; omega)
      · rw [if_neg hmy]
        exact ih (i + 1) acc hx' (by simp at hlen ⊢; omega)

lemma lcsZipScan_err (x : Var) (ys : List Var) :
    ∀ ps tau, x ∈ ps.map Prod.fst →
      lcsZipScan x ys ps tau = .error .invalidTLParameter := by
  intro ps
  induction ps with
  | nil => intro tau hx; cases hx
  | cons p rest ih =>
    intro tau hx
    rw [lcsZipScan]
    by_cases hpx : p.1 = x
    · rw [if_pos hpx]
    · rw [if_neg hpx]
      have hx' : x ∈ rest.map Prod.fst := by
        rcases List.mem_cons.mp hx with h | h
        · exact absurd h.symm hpx
        · exact h
      cases hf : ys.findIdx? (fun z => z = p.1) with
      | none => exact ih tau hx'
      | some i => exact ih (tau.set i (some p.2)) hx'

/-- Claim C9, confirmed.  For AssignmentSolver, LinearCombinationSolver
and NormSqEquation, calling tangent_linear with a parameter list M
containing the equation solution Variable raises EquationException
("Invalid tangent-linear parameter"), for every direction list dM of
matching length and every tangent-linear map. -/
theorem claim_C9_theorem (M dM : List Var) (tlm : TlmMap)
    (hlen : M.length = dM.length) :
    (∀ rec : AssignRec, rec.x ∈ M →
        assignmentTangentLinear rec M dM tlm = .error .invalidTLParameter) ∧
    (∀ rec : LCRec, rec.x ∈ M →
        lcsTangentLinear rec M dM tlm = .error .invalidTLParameter) ∧
    (∀ rec : NormSqRec, rec.x ∈ M →
        normSqTangentLinear rec M dM tlm = .error .invalidTLParameter) := by
  refine ⟨fun rec hx => ?_, fun rec hx => ?_, fun rec hx => ?_⟩
  · have h := enumScan_err rec.x rec.y dM M 0 none hx
      (by rw [Nat.zero_add, hlen])
    rw [assignmentTangentLinear]
    rw [h]
    rfl
  · have hzip : rec.x ∈ (M.zip dM).map Prod.fst := by
      rw [List.map_fst_zip M dM (le_of_eq hlen)]
      exact hx
    have h := lcsZipScan_err rec.x rec.ys (M.zip dM)
      (rec.ys.map fun _ => none) hzip
    rw [lcsTangentLinear]
    rw [h]
    rfl
  · have h := enumScan_err rec.x rec.y dM M 0 none hx
      (by rw [Nat.zero_add, hlen])
    rw [normSqTangentLinear]
    rw [h]
    rfl

/-- Witness for claim C9 at concrete equations x <- y (assignment),
x <- 2 y (linear combination) and x <- |y|^2 (norm-square), with
M = [x] and a matching direction list. -/
theorem claim_C9_witness :
    assignmentTangentLinear
        (AssignRec.mk (Var.mk 0 false) (Var.mk 1 false) [] []
          (EqRec.mk [Var.mk 0 false] [Var.mk 0 false, Var.mk 1 false]
            (some []) [] [false]))
        [Var.mk 0 false] [Var.mk 5 false] (fun _ => none) =
      .error .invalidTLParameter ∧
    lcsTangentLinear
        (LCRec.mk (Var.mk 0 false) [2] [Var.mk 1 false] [] []
          (EqRec.mk [Var.mk 0 false] [Var.mk 0 false, Var.mk 1 false]
            (some []) [] [false]))
        [Var.mk 0 false] [Var.mk 5 false] (fun _ => none) =
      .error .invalidTLParameter ∧
    normSqTangentLinear
        (NormSqRec.mk (Var.mk 1 false) (Var.mk 0 false)
          (EqRec.mk [Var.mk 0 false] [Var.mk 0 false, Var.mk 1 false]
            (some [Var.mk 1 false]) [1] [false]))
        [Var.mk 0 false] [Var.mk 5 false] (fun _ => none) =
      .error .invalidTLParameter := by
  refine ⟨(claim_C9_theorem [Var.mk 0 false] [Var.mk 5 false]
      (fun _ => none) rfl).1 _ ?_,
    (claim_C9_theorem [Var.mk 0 false] [Var.mk 5 false]
      (fun _ => none) rfl).2.1 _ ?_,
    (claim_C9_theorem [Var.mk 0 false] [Var.mk 5 false]
      (fun _ => none) rfl).2.2 _ ?_⟩
  · exact List.mem_cons_self _ _
  · exact List.mem_cons_self _ _
  · exact List.mem_cons_self _ _

/-! ## FixedPointSolver

Embedding of FixedPointSolver.__init__ (base_equations.py lines
425-514), the initial-guess seeding of forward_solve (lines 529-534) and
tangent_linear (lines 655-658).  A member Equation is represented by
what the constructor reads from it: its solution tuple, dependencies and
nonlinear dependencies.  Python None members (as produced by a member
tangent_linear with no effect) are Option.none; calling x() on None
raises AttributeError. -/

structure MemberEq where
  X : List Var
  deps : List Var
  nl_deps : Option (List Var)
deriving DecidableEq, Repr, Inhabited

/-- Equation.nonlinear_dependencies (lines 132-136). -/
def MemberEq.nonlinearDependencies (e : MemberEq) : List Var :=
  e.nl_deps.getD e.deps

/-- Equation.x (lines 112-120): the unique solution, or an error when
the equation does not solve for exactly one Function. -/
def memberSingleX : Option MemberEq → Except EqErr Var
  | none => .error .attributeError
  | some e =>
    match e.X with
    | [x] => .ok x
    | _ => .error .multipleSolves

/-- The solver_parameters dictionary after the defaults of lines 462-468
have been filled in (maximum_iterations 1000, nonzero_initial_guess
True, report False; the two tolerances are required). -/
structure SolverParams where
  absolute_tolerance : ℚ
  relative_tolerance : ℚ
  maximum_iterations : ℕ := 1000
  nonzero_initial_guess : Bool := true
  report : Bool := false
deriving DecidableEq, Repr

/-- The duplicate-solve scan of lines 453-459: walk the member list in
order, take each member x() (AttributeError for None, an error for a
multi-solution member), reject a repeated solution id, and collect the
members. -/
def fpScanSolves : List (Option MemberEq) → List ℕ →
    Except EqErr (List MemberEq)
  | [], _ => .ok []
  | oe :: rest, seen => do
    let x ← memberSingleX oe
    if x.id ∈ seen then .error .duplicateSolve
    else do
      let ms ← fpScanSolves rest (x.id :: seen)
      match oe with
      | none => .error .attributeError
      | some e => .ok (e :: ms)

/-- The initial-guess handling of lines 475-486: with
nonzero_initial_guess, a missing guess or a guess equal to the final
solution leaves the index unset, while a distinct guess is seeded as
dependency 0; without nonzero_initial_guess an explicit guess is
rejected. -/
def fpGuess (sp : SolverParams) (x : Var) (initial_guess : Option Var) :
    Except EqErr (Option ℕ × List Var) :=
  if sp.nonzero_initial_guess then
    match initial_guess with
    | none => .ok (none, [])
    | some g => if g = x then .ok (none, []) else .ok (some 0, [g])
  else
    match initial_guess with
    | none => .ok (none, [])
    | some _ => .error .initialGuessWithoutNonzero

/-- One dependency folded into the id-deduplicated accumulator of lines
492-497: a known id records its existing index, a new dependency is
appended. -/
def fpAddDep (p : List Var × List ℕ) (d : Var) : List Var × List ℕ :=
  match p.1.findIdx? (fun e => e.id = d.id) with
  | some i => (p.1, p.2 ++ [i])
  | none => (p.1 ++ [d], p.2 ++ [p.1.length])

/-- One member list folded into the id-deduplicated dependency
accumulator of lines 491-503, recording the index of each dependency. -/
def fpAggStep (st : List Var × List (List ℕ)) (ds : List Var) :
    List Var × List (List ℕ) :=
  let inner := ds.foldl fpAddDep (st.1, [])
  (inner.1, st.2 ++ [inner.2])

/-- The dependency aggregation loop of lines 488-503 (the deps and
nl_deps accumulators are independent, so the interleaved source loop is
equivalent to one fold per accumulator). -/
def fpAggregate (dss : List (List Var)) (deps0 : List Var) :
    List Var × List (List ℕ) :=
  dss.foldl fpAggStep (deps0, [])

/-- The record assembled by FixedPointSolver.__init__ (lines 507-514). -/
structure FPRec where
  base : EqRec
  eqs : List MemberEq
  initial_guess_index : Option ℕ
  eq_dep_indices : List (List ℕ)
  eq_nl_dep_indices : List (List ℕ)
  sp : SolverParams
deriving DecidableEq, Repr

/-- FixedPointSolver.__init__ (lines 425-514): duplicate-solve scan,
final solution lookup (eqs[-1] raises IndexError on an empty list),
initial-guess handling, dependency aggregation, and the base
Equation.__init__ call with the member solutions as X. -/
def fpInit (eqs : List (Option MemberEq)) (sp : SolverParams)
    (initial_guess : Option Var) : Except EqErr FPRec := do
  let ms ← fpScanSolves eqs []
  let xlast ← match ms.getLast? with
    | none => .error .indexError
    | some e => memberSingleX (some e)
  let gi ← fpGuess sp xlast initial_guess
  let depsAgg := fpAggregate (ms.map MemberEq.deps) gi.2
  let nlAgg := fpAggregate (ms.map MemberEq.nonlinearDependencies) []
  let xs ← ms.mapM (fun e => memberSingleX (some e))
  let base ← equationInit xs depsAgg.1 (some nlAgg.1)
  .ok ⟨base, ms, gi.1, depsAgg.2, nlAgg.2, sp⟩

/-- The initial-guess seeding phase of FixedPointSolver.forward_solve
(lines 529-534), reading the default dependencies: with
nonzero_initial_guess and a stored guess index, assign the guess
dependency to the final solution; with nonzero_initial_guess and no
index, leave the final solution untouched; otherwise zero it. -/
def fpSeedForward (fp : FPRec) (σ : State) : State :=
  let x := fp.base.X.getLastD default
  if fp.sp.nonzero_initial_guess then
    match fp.initial_guess_index with
    | some i =>
      σ.set x.id (function_assign (σ x.id) (σ ((fp.base.deps.getD i default).id)))
    | none => σ
  else
    σ.set x.id (function_zero (σ x.id))

/-- FixedPointSolver.tangent_linear (lines 655-658): construct a new
FixedPointSolver from the member tangent-linear results (the list
memberTLs stands for [eq.tangent_linear(M, dM, tlm_map) for eq in
self._eqs], and may contain None), reusing self._solver_parameters, with
the tangent-linear companion of the stored initial guess. -/
def fpTangentLinear (fp : FPRec) (memberTLs : List (Option MemberEq))
    (tlm : TlmMap) : Except EqErr FPRec :=
  fpInit memberTLs fp.sp
    (match fp.initial_guess_index with
     | none => none
     | some i => tlm (fp.base.deps.getD i default))

lemma fpScanSolves_ok_eqs :
    ∀ (l : List (Option MemberEq)) (seen : List ℕ) (ms : List MemberEq),
      fpScanSolves l seen = .ok ms → l = ms.map some := by
  intro l
  induction l with
  | nil =>
    intro seen ms h
    rw [fpScanSolves] at h
    cases h
    rfl
  | cons oe rest ih =>
    intro seen ms h
    rw [fpScanSolves] at h
    cases oe with
    | none => cases h
    | some e =>
      cases hX : e.X with
      | nil => rw [memberSingleX, hX] at h; cases h
      | cons x xs =>
        cases xs with
        | cons b bs => rw [memberSingleX, hX] at h; cases h
        | nil =>
          rw [memberSingleX, hX] at h
          simp only [bind, Except.bind] at h
          by_cases hid : x.id ∈ seen
          · rw [if_pos hid] at h; cases h
          · rw [if_neg hid] at h
            cases hrec : fpScanSolves rest (x.id :: seen) with
            | error e2 => rw [hrec] at h; cases h
            | ok ms' =>
              rw [hrec] at h
              cases h
              rw [List.map_cons]
              rw [← ih (x.id :: seen) ms' hrec]

lemma fpScanSolves_none_err :
    ∀ (l : List (Option MemberEq)) (seen : List ℕ),
      Option.none ∈ l → ∃ e, fpScanSolves l seen = .error e := by
  intro l
  induction l with
  | nil => intro seen h; cases h
  | cons oe rest ih =>
    intro seen h
    rw [fpScanSolves]
    cases oe with
    | none => exact ⟨.attributeError, rfl⟩
    | some e =>
      have hrest : Option.none ∈ rest := by
        rcases List.mem_cons.mp h with h | h
        · cases h
        · exact h
      cases hX : e.X with
      | nil =>
        exact ⟨.multipleSolves, by simp [memberSingleX, hX, bind, Except.bind]⟩
      | cons x xs =>
        cases xs with
        | cons b bs =>
          exact ⟨.multipleSolves, by simp [memberSingleX, hX, bind, Except.bind]⟩
        | nil =>
          rw [memberSingleX, hX]
          simp only [bind, Except.bind]
          by_cases hid : x.id ∈ seen
          · exact ⟨.duplicateSolve, by rw [if_pos hid]⟩
          · rw [if_neg hid]
            obtain ⟨e2, he2⟩ := ih (x.id :: seen) hrest
            exact ⟨e2, by rw [he2]⟩

lemma equationInit_ok_X (X deps : List Var) (nl : Option (List Var))
    (rec : EqRec) (h : equationInit X deps nl = .ok rec) :
    rec.X = X ∧ rec.deps = deps := by
  rw [equationInit.eq_def] at h
  cases hcs : checkSolutions X deps with
  | error e => rw [hcs] at h; cases h
  | ok u =>
    cases u
    rw [hcs] at h
    simp only [bind, Except.bind] at h
    by_cases hnd : (deps.map Var.id).Nodup
    · rw [if_pos hnd] at h
      cases nl with
      | none => cases h; exact ⟨rfl, rfl⟩
      | some nll =>
        dsimp only at h
        by_cases hnl : (nll.map Var.id).Nodup
        · rw [if_pos hnl] at h
          cases hmm : nll.mapM (fun d => lookupDepIdx deps d.id) with
          | error e => rw [hmm] at h; cases h
          | ok nlMap =>
            rw [hmm] at h
            simp only [bind, Except.bind] at h
            cases h
            exact ⟨rfl, rfl⟩
        · rw [if_neg hnl] at h; cases h
    · rw [if_neg hnd] at h; cases h

lemma mapM_singleX_last :
    ∀ (ms : List MemberEq) (xs : List Var),
      ms.mapM (fun e => memberSingleX (some e)) = .ok xs →
      ∀ e, ms.getLast? = some e →
        ∃ x, memberSingleX (some e) = .ok x ∧ xs.getLast? = some x := by
  intro ms
  induction ms with
  | nil => intro xs _ e he; cases he
  | cons m rest ih =>
    intro xs h e he
    rw [List.mapM_cons] at h
    cases hm : memberSingleX (some m) with
    | error e2 => rw [hm] at h; simp [bind, Except.bind] at h
    | ok x =>
      rw [hm] at h
      cases hrest : rest.mapM (fun e => memberSingleX (some e)) with
      | error e2 => rw [hrest] at h; simp [bind, Except.bind] at h
      | ok xs' =>
        rw [hrest] at h
        simp only [bind, Except.bind, pure, Except.pure] at h
        cases h
        cases rest with
        | nil =>
          cases he
          have hxs' : xs' = [] := by
            rw [List.mapM_nil] at hrest
            cases hrest
            rfl
          subst hxs'
          exact ⟨x, hm, rfl⟩
        | cons r rs =>
          rw [List.getLast?_cons_cons] at he
          obtain ⟨x', hx'1, hx'2⟩ := ih xs' hrest e he
          refine ⟨x', hx'1, ?_⟩
          cases xs' with
          | nil => cases hx'2
          | cons y ys => rw [List.getLast?_cons_cons]; exact hx'2

/-- Inversion of a successful FixedPointSolver construction: the solver
parameters are stored verbatim, the member list collects exactly the
given equations (all of them actual Equations, none of them None), the
stored guess index and the dependency list derive from the final member
solution through fpGuess and the aggregation. -/
lemma fpInit_ok_inv (eqs : List (Option MemberEq)) (sp : SolverParams)
    (g : Option Var) (fp : FPRec) (h : fpInit eqs sp g = .ok fp) :
    fp.sp = sp ∧ eqs = fp.eqs.map some ∧
    ∃ gi : Option ℕ × List Var,
      fpGuess sp (fp.base.X.getLastD default) g = .ok gi ∧
      fp.initial_guess_index = gi.1 ∧
      fp.base.deps = (fpAggregate (fp.eqs.map MemberEq.deps) gi.2).1 := by
  rw [fpInit] at h
  cases hscan : fpScanSolves eqs [] with
  | error e => rw [hscan] at h; simp [bind, Except.bind] at h
  | ok ms =>
    rw [hscan] at h
    simp only [bind, Except.bind] at h
    cases hlast : ms.getLast? with
    | none => rw [hlast] at h; simp at h
    | some e =>
      rw [hlast] at h
      dsimp only at h
      cases hx : memberSingleX (some e) with
      | error e2 => rw [hx] at h; simp at h
      | ok xlast =>
        rw [hx] at h
        dsimp only at h
        cases hgi : fpGuess sp xlast g with
        | error e2 => rw [hgi] at h; simp at h
        | ok gi =>
          rw [hgi] at h
          dsimp only at h
          cases hxs : ms.mapM (fun e => memberSingleX (some e)) with
          | error e2 => rw [hxs] at h; simp at h
          | ok xs =>
            rw [hxs] at h
            dsimp only at h
            cases hbase : equationInit xs
                (fpAggregate (ms.map MemberEq.deps) gi.2).1
                (some (fpAggregate (ms.map MemberEq.nonlinearDependencies) []).1) with
            | error e2 => rw [hbase] at h; simp at h
            | ok base =>
              rw [hbase] at h
              dsimp only at h
              cases h
              obtain ⟨hbX, hbD⟩ := equationInit_ok_X _ _ _ _ hbase
              obtain ⟨x', hx'1, hx'2⟩ := mapM_singleX_last ms xs hxs e hlast
              have hxx : x' = xlast := by
                rw [hx] at hx'1
                injection hx'1 with hinj
                exact hinj.symm
              have hlastD : base.X.getLastD default = xlast := by
                rw [hbX, List.getLastD_eq_getLast?, hx'2, hxx]
                rfl
              refine ⟨rfl, fpScanSolves_ok_eqs eqs [] ms hscan, gi, ?_, rfl, hbD⟩
              rw [hlastD]
              exact hgi

lemma fpAddDep_extends (p : List Var × List ℕ) (d : Var) :
    p.1 <+: (fpAddDep p d).1 := by
  rw [fpAddDep]
  cases p.1.findIdx? (fun e => e.id = d.id) with
  | none => exact ⟨[d], rfl⟩
  | some i => exact List.prefix_rfl

lemma fpAddDep_foldl_extends (ds : List Var) :
    ∀ p : List Var × List ℕ, p.1 <+: (ds.foldl fpAddDep p).1 := by
  induction ds with
  | nil => intro p; exact List.prefix_rfl
  | cons d rest ih =>
    intro p
    exact List.IsPrefix.trans (fpAddDep_extends p d) (ih (fpAddDep p d))

lemma fpAggregate_extends (dss : List (List Var)) :
    ∀ st : List Var × List (List ℕ), st.1 <+: (dss.foldl fpAggStep st).1 := by
  induction dss with
  | nil => intro st; exact List.prefix_rfl
  | cons ds rest ih =>
    intro st
    refine List.IsPrefix.trans ?_ (ih (fpAggStep st ds))
    rw [fpAggStep]
    exact fpAddDep_foldl_extends ds (st.1, [])

/-- The head of the aggregated dependency list is the head of the seed
list (the explicit initial guess, when one was recorded). -/
lemma fpAggregate_getD_zero (dss : List (List Var)) (gv : Var) :
    (fpAggregate dss [gv]).1.getD 0 default = gv := by
  obtain ⟨t, ht⟩ := fpAggregate_extends dss ([gv], [])
  rw [fpAggregate, ← ht]
  rfl

/-- Claim C5, amended.  For a successfully constructed FixedPointSolver:
with nonzero_initial_guess and an explicit guess distinct from the final
member solution, the guess is stored as dependency 0 and the seeding
phase assigns its payload to the final solution; with
nonzero_initial_guess but no distinct explicit guess, the final solution
is left at its current payload (NOT zeroed -- the current value serves
as the guess); only with nonzero_initial_guess false is the final
solution zeroed. -/
theorem claim_C5_theorem (eqs : List (Option MemberEq)) (sp : SolverParams)
    (g : Option Var) (fp : FPRec) (σ : State)
    (h : fpInit eqs sp g = .ok fp) :
    (sp.nonzero_initial_guess = true →
      ∀ gv, g = some gv → gv ≠ fp.base.X.getLastD default →
        fp.initial_guess_index = some 0 ∧
        fp.base.deps.getD 0 default = gv ∧
        fpSeedForward fp σ =
          σ.set (fp.base.X.getLastD default).id (σ gv.id)) ∧
    (sp.nonzero_initial_guess = true →
      (g = none ∨ g = some (fp.base.X.getLastD default)) →
        fpSeedForward fp σ = σ) ∧
    (sp.nonzero_initial_guess = false →
        fpSeedForward fp σ =
          σ.set (fp.base.X.getLastD default).id
            (function_zero (σ (fp.base.X.getLastD default).id))) := by
  obtain ⟨hsp, -, gi, hgi, hidx, hdeps⟩ := fpInit_ok_inv eqs sp g fp h
  have hnzsp : fp.sp.nonzero_initial_guess = sp.nonzero_initial_guess := by
    rw [hsp]
  refine ⟨?_, ?_, ?_⟩
  · intro hnz gv hg hne
    rw [fpGuess.eq_def] at hgi
    rw [if_pos hnz, hg] at hgi
    dsimp only at hgi
    rw [if_neg hne] at hgi
    cases hgi
    refine ⟨hidx, ?_, ?_⟩
    · rw [hdeps]
      exact fpAggregate_getD_zero _ gv
    · rw [fpSeedForward]
      rw [hnzsp, hnz, hidx]
      dsimp only
      rw [hdeps, fpAggregate_getD_zero _ gv]
      rfl
  · intro hnz hg
    rw [fpGuess.eq_def] at hgi
    rw [if_pos hnz] at hgi
    rcases hg with hg | hg
    · rw [hg] at hgi
      dsimp only at hgi
      cases hgi
      rw [fpSeedForward, hnzsp, hnz, hidx]
      rfl
    · rw [hg] at hgi
      dsimp only at hgi
      rw [if_pos rfl] at hgi
      cases hgi
      rw [fpSeedForward, hnzsp, hnz, hidx]
      rfl
  · intro hnz
    rw [fpSeedForward, hnzsp, hnz]
    rfl

/-- A one-member fixed point system solving for variable 0 (the member
reads only its own solution, with no nonlinear dependencies). -/
def fpExampleMember : MemberEq :=
  MemberEq.mk [Var.mk 0 false] [Var.mk 0 false] (some [])

/-- Counterexample to claim C5 as stated: with nonzero_initial_guess
true (the default) and no explicit guess, the final member solution is
NOT seeded with zero -- its current payload [5] is kept as the initial
guess, while the claim required zero. -/
theorem claim_C5_counterexample :
    (fpInit [some fpExampleMember]
        (SolverParams.mk 1 1 1000 true false) Option.none).map
      (fun fp => fpSeedForward fp (fun i => if i = 0 then [5] else []) 0) =
      .ok [5] ∧
      ([5] : Payload) ≠ function_zero [5] := by
  constructor
  · rfl
  · decide

/-- The fixed point solver of the claim C5 witness, as constructed by
fpInit with nonzero_initial_guess false. -/
def fpC5Solver : FPRec :=
  FPRec.mk (EqRec.mk [Var.mk 0 false] [Var.mk 0 false] (some []) [] [false])
    [fpExampleMember] Option.none [[0]] [[]]
    (SolverParams.mk 1 1 1000 false false)

def fpC5State : State := fun _ => [5]

/-- Witness for claim C5 (amended) at a concrete solver with
nonzero_initial_guess false: the seeding phase zeroes the final member
solution. -/
theorem claim_C5_witness :
    fpSeedForward fpC5Solver fpC5State =
      fpC5State.set (fpC5Solver.base.X.getLastD default).id
        (function_zero (fpC5State (fpC5Solver.base.X.getLastD default).id)) :=
  (claim_C5_theorem [some fpExampleMember]
    (SolverParams.mk 1 1 1000 false false) Option.none fpC5Solver fpC5State
    (by rfl)).2.2 rfl

/-- Claim C4, amended.  FixedPointSolver.tangent_linear never returns
"no effect": when every member tangent-linear is an Equation, it
composes them into a new FixedPointSolver reusing the same
solver_parameters; when any member tangent-linear is "no effect"
(None), the construction fails with an error (the None member is
passed into the constructor, whose x() access fails) instead of being
dropped or producing None. -/
theorem claim_C4_theorem (fp : FPRec) (tls : List (Option MemberEq))
    (tlm : TlmMap) :
    (Option.none ∈ tls →
        exceptIsOk (fpTangentLinear fp tls tlm) = false) ∧
    (∀ fp', fpTangentLinear fp tls tlm = .ok fp' →
        fp'.sp = fp.sp ∧ tls = fp'.eqs.map some) := by
  constructor
  · intro hmem
    obtain ⟨e, he⟩ := fpScanSolves_none_err tls [] hmem
    rw [fpTangentLinear, fpInit]
    rw [he]
    rfl
  · intro fp' h
    rw [fpTangentLinear] at h
    obtain ⟨h1, h2, -⟩ := fpInit_ok_inv _ _ _ _ h
    exact ⟨h1, h2⟩

/-- Counterexample to claim C4 as stated: a FixedPointSolver with one
member whose tangent-linear is "no effect" (None).  The claim requires
tangent_linear to return "no effect" (all members are None) after
dropping None members without error; the code instead fails with the
AttributeError from None.x() inside the constructor. -/
theorem claim_C4_counterexample :
    (fpInit [some fpExampleMember] (SolverParams.mk 1 1 1000 true false)
        Option.none).map
      (fun fp => fpTangentLinear fp [Option.none] (fun _ => Option.none)) =
      .ok (.error .attributeError) := by
  rfl

/-- The fixed point solver produced by the claim C4 witness
construction (nonzero_initial_guess true, no explicit guess). -/
def fpC4Solver : FPRec :=
  FPRec.mk (EqRec.mk [Var.mk 0 false] [Var.mk 0 false] (some []) [] [false])
    [fpExampleMember] Option.none [[0]] [[]]
    (SolverParams.mk 1 1 1000 true false)

/-- Witness for claim C4 (amended): composing a one-member tangent
linear (all members actual Equations) succeeds and reuses the same
solver parameters. -/
theorem claim_C4_witness :
    fpC4Solver.sp = fpC4Solver.sp ∧
      [some fpExampleMember] = fpC4Solver.eqs.map some :=
  (claim_C4_theorem fpC4Solver [some fpExampleMember]
    (fun _ => Option.none)).2 fpC4Solver (by rfl)

/-! ## EquationManager flags and Equation.solve

Equation.solve (base_equations.py lines 153-179) brackets forward_solve
between manager.stop() and manager.start(...).  The EquationManager
itself (manager.py) is not among the sources under verification, so its
flag operations are modelled from the spec: the manager is in state
stopped or annotating with an orthogonal tangent-linear flag, stop()
returns the prior pair of flags and clears both, start restores given
flags, and the annotation bookkeeping (add_initial_condition,
add_equation) records into the trace without touching the flags. -/

structure ManagerState where
  annotating : Bool
  tlm : Bool
  ics : List ℕ
  eqLog : List ℕ
deriving DecidableEq, Repr

/-- Modelled from the spec: manager.annotation_enabled(). -/
def annotationEnabled (m : ManagerState) : Bool :=
  m.annotating

/-- Modelled from the spec: manager.stop() disables annotation and
tangent-linear recording and returns the pair of prior flags. -/
def managerStop (m : ManagerState) : (Bool × Bool) × ManagerState :=
  ((m.annotating, m.tlm), { m with annotating := false, tlm := false })

/-- Modelled from the spec: manager.start(annotation, tlm). -/
def managerStart (a t : Bool) (m : ManagerState) : ManagerState :=
  { m with annotating := a, tlm := t }

/-- Modelled from the spec: manager.add_initial_condition records the
pre-solve snapshot of one Variable into the initial-condition table. -/
def addInitialCondition (x : Var) (m : ManagerState) : ManagerState :=
  { m with ics := m.ics ++ [x.id] }

/-- Modelled from the spec: manager.add_equation appends the equation
to the current block. -/
def addEquation (eqId : ℕ) (m : ManagerState) : ManagerState :=
  { m with eqLog := m.eqLog ++ [eqId] }

/-- Equation._pre_annotate (lines 141-146): snapshot every solution
Variable whose checkpoint_ic flag is set. -/
def preAnnotate (rec : EqRec) (m : ManagerState) : ManagerState :=
  (rec.X.zip rec.checkpoint_ic).foldl
    (fun m p => if p.2 then addInitialCondition p.1 m else m) m

/-- Equation._post_annotate (lines 148-151). -/
def postAnnotate (eqId : ℕ) (m : ManagerState) : ManagerState :=
  addEquation eqId m

/-- Equation.solve (lines 153-179): pre-annotate, read
annotation_enabled (line 173, recorded but unused afterwards), stop the
manager, run forward_solve on the state, restore the manager with the
flag pair returned by stop, then post-annotate.  The member forward
behaviour is the opaque forward argument. -/
def equationSolve (rec : EqRec) (eqId : ℕ) (forward : State → State)
    (σ : State) (m : ManagerState) : State × ManagerState :=
  let m1 := preAnnotate rec m
  let p := managerStop m1
  let σ2 := forward σ
  let m3 := managerStart p.1.1 p.1.2 p.2
  let m4 := postAnnotate eqId m3
  (σ2, m4)

lemma preAnnotate_flags (rec : EqRec) (m : ManagerState) :
    (preAnnotate rec m).annotating = m.annotating ∧
      (preAnnotate rec m).tlm = m.tlm := by
  rw [preAnnotate]
  induction rec.X.zip rec.checkpoint_ic generalizing m with
  | nil => exact ⟨rfl, rfl⟩
  | cons p rest ih =>
    rw [List.foldl_cons]
    rcases ih (if p.2 then addInitialCondition p.1 m else m) with ⟨h1, h2⟩
    rw [h1, h2]
    by_cases hp : p.2
    · rw [if_pos hp]
      exact ⟨rfl, rfl⟩
    · rw [if_neg hp]
      exact ⟨rfl, rfl⟩

/-- Claim C10, confirmed (with the manager flag semantics modelled from
the spec).  Equation.solve records the annotation and tangent-linear
flags, runs forward_solve with the manager stopped (both flags false),
restores exactly the prior flags before post-annotation, and the
manager flags after solve() equal their values before it. -/
theorem claim_C10_theorem (rec : EqRec) (eqId : ℕ)
    (forward : State → State) (σ : State) (m : ManagerState) :
    ((managerStop (preAnnotate rec m)).2.annotating = false ∧
      (managerStop (preAnnotate rec m)).2.tlm = false) ∧
    ((managerStart (managerStop (preAnnotate rec m)).1.1
        (managerStop (preAnnotate rec m)).1.2
        (managerStop (preAnnotate rec m)).2).annotating = m.annotating ∧
      (managerStart (managerStop (preAnnotate rec m)).1.1
        (managerStop (preAnnotate rec m)).1.2
        (managerStop (preAnnotate rec m)).2).tlm = m.tlm) ∧
    ((equationSolve rec eqId forward σ m).2.annotating = m.annotating ∧
      (equationSolve rec eqId forward σ m).2.tlm = m.tlm) ∧
    (equationSolve rec eqId forward σ m).1 = forward σ := by
  obtain ⟨h1, h2⟩ := preAnnotate_flags rec m
  refine ⟨⟨rfl, rfl⟩, ⟨h1, h2⟩, ⟨?_, ?_⟩, rfl⟩
  · exact h1
  · exact h2
